import Mathlib

set_option maxRecDepth 8000

/- Shallow embedding of src/main.rs: a keyboard-layout hill-climbing search.
   Rust f64 weights are modelled as exact rationals, and the HashMap of bigram
   frequencies as an association list of entries (the cost fold is order
   independent, so the list order is immaterial). -/

/-- Fixed alphabet, the constant ALPHABET of the source. -/
def ALPHABET : List Char := "abcdefghijklmnopqrstuvwxyz".toList

/-- Total trial budget, the constant MAX_TRIES of the source. -/
def MAX_TRIES : ℕ := 100000000

/-- Worker pool size, the constant CONCURRENT_TASKS of the source. -/
def CONCURRENT_TASKS : ℕ := 13

/-- Trials performed by one worker: each spawned task loops
`for _ in 0..(MAX_TRIES / CONCURRENT_TASKS)` in main. -/
def workerTrials : ℕ := MAX_TRIES / CONCURRENT_TASKS

/-- Trials performed over the whole run: main spawns CONCURRENT_TASKS
workers, each performing workerTrials trials. -/
def totalTrials : ℕ := CONCURRENT_TASKS * workerTrials

/-- Frequency table: the HashMap of bigram weights, modelled as an
association list with rational weights. -/
abbrev FreqTable := List ((Char × Char) × ℚ)

/-- Result record returned by find_valley, OptimizationResult in the source. -/
structure OptimizationResult where
  layout : List Char
  cost : ℚ
  steps : ℕ
deriving DecidableEq

/-- Body of the fold in calculate_cost: add weight times the absolute
position distance when both bigram symbols occur in the layout. -/
def costStep (layout : List Char) (cost : ℚ) (e : (Char × Char) × ℚ) : ℚ :=
  match layout.findIdx? (· == e.1.1), layout.findIdx? (· == e.1.2) with
  | some pos_a, some pos_b => cost + e.2 * (Nat.dist pos_a pos_b : ℚ)
  | _, _ => cost

/-- Embedding of calculate_cost: fold over the frequency-table entries
accumulating from zero. -/
def calculate_cost (layout : List Char) (bigram_freq : FreqTable) : ℚ :=
  bigram_freq.foldl (costStep layout) 0

/-- Swap of the entries at positions i and j of a list, the layout.swap of
the source (identity when an index is out of range; the source only ever
swaps in-bounds indices of its 26-entry layout). -/
def listSwap (l : List Char) (i j : ℕ) : List Char :=
  match l[i]?, l[j]? with
  | some a, some b => (l.set i b).set j a
  | _, _ => l

/-- Candidate pairs produced by one turn of the outer loop of find_valley:
(i, j) for j ascending through i+1..25. -/
def rowPairs (i : ℕ) : List (ℕ × ℕ) :=
  ((List.range 26).filter fun j => i < j).map fun j => (i, j)

/-- Candidate position pairs (i, j) with i < j < 26, listed with i ascending
then j ascending: exactly the nested loops `for i in 0..26, for j in i+1..26`
of find_valley. -/
def candidatePairs : List (ℕ × ℕ) :=
  ((List.range 26).map rowPairs).flatten

/-- Cost after hypothetically swapping positions p.1 and p.2: the source
swaps in place, computes the cost, and swaps back, which is the cost of the
swapped copy. -/
def swapCost (layout : List Char) (freq : FreqTable) (p : ℕ × ℕ) : ℚ :=
  calculate_cost (listSwap layout p.1 p.2) freq

/-- Single step of the inner scan of find_valley: the running best
(best_swap, best_swap_cost) is replaced when the candidate swap costs
strictly less, so ties keep the earlier candidate. -/
def scanStep (layout : List Char) (freq : FreqTable)
    (acc : Option (ℕ × ℕ) × ℚ) (p : ℕ × ℕ) : Option (ℕ × ℕ) × ℚ :=
  if swapCost layout freq p < acc.2 then (some p, swapCost layout freq p) else acc

/-- Double loop of find_valley scanning all candidate pairs, starting from
best_swap = None and best_swap_cost = current_cost. -/
def scanSwaps (layout : List Char) (freq : FreqTable) (current_cost : ℚ) :
    Option (ℕ × ℕ) × ℚ :=
  candidatePairs.foldl (scanStep layout freq) (none, current_cost)

/-- Main loop of find_valley with explicit fuel bounding the number of loop
iterations (the Rust loop is unbounded; the termination theorem shows a
finite fuel always suffices). Each iteration increments steps, then either
applies the best improving swap and continues, or returns. -/
def find_valley_loop (freq : FreqTable) :
    ℕ → List Char → ℚ → ℕ → Option OptimizationResult
  | 0, _, _, _ => none
  | fuel + 1, layout, current_cost, steps =>
    match scanSwaps layout freq current_cost with
    | (some p, best_swap_cost) =>
        find_valley_loop freq fuel (listSwap layout p.1 p.2) best_swap_cost (steps + 1)
    | (none, _) => some ⟨layout, current_cost, steps + 1⟩

/-- Embedding of find_valley: start from the cost of the input layout and
zero completed steps. -/
def find_valley (layout : List Char) (freq : FreqTable) (fuel : ℕ) :
    Option OptimizationResult :=
  find_valley_loop freq fuel layout (calculate_cost layout freq) 0

/-- Modelled from the spec: LayoutGenerator shuffles the fixed alphabet with
a per-worker rng (the rand crate's slice shuffle, a Fisher-Yates pass of
position swaps, is outside this repository). The rng is modelled as a stream
of draws, draw i being reduced modulo i+1 to pick the partner of position i. -/
def shuffleLoop (draws : ℕ → ℕ) : ℕ → List Char → List Char
  | 0, l => l
  | i + 1, l => shuffleLoop draws i (listSwap l (i + 1) (draws (i + 1) % (i + 2)))

/-- Embedding of generate_random_layout: shuffle the fixed alphabet. -/
def generate_random_layout (draws : ℕ → ℕ) : List Char :=
  shuffleLoop draws 25 ALPHABET

/- Lemmas about listSwap: swapping two in-range entries permutes the list. -/

/-- Helper for the swap permutation lemma: moving an element of xs to the
head while writing x at its old position permutes x :: xs. -/
theorem set_cons_perm (x : Char) :
    ∀ (xs : List Char) (j : ℕ) (b : Char), xs[j]? = some b →
      List.Perm (b :: xs.set j x) (x :: xs) := by
  intro xs
  induction xs with
  | nil => intro j b h; simp at h
  | cons y ys ih =>
    intro j b h
    cases j with
    | zero =>
      simp only [List.getElem?_cons_zero, Option.some.injEq] at h
      subst h
      simpa using List.Perm.swap x y ys
    | succ j =>
      simp only [List.getElem?_cons_succ] at h
      have step1 : List.Perm (b :: y :: ys.set j x) (y :: b :: ys.set j x) :=
        List.Perm.swap y b _
      have step2 : List.Perm (y :: b :: ys.set j x) (y :: x :: ys) :=
        List.Perm.cons y (ih j b h)
      have step3 : List.Perm (y :: x :: ys) (x :: y :: ys) := List.Perm.swap x y ys
      simpa using (step1.trans step2).trans step3

/-- Writing b at position i and a at position j, where a and b are the
entries at positions i and j, permutes the list. -/
theorem set_set_perm :
    ∀ (l : List Char) (i j : ℕ) (a b : Char), l[i]? = some a → l[j]? = some b →
      List.Perm ((l.set i b).set j a) l := by
  intro l
  induction l with
  | nil => intro i j a b h; simp at h
  | cons x xs ih =>
    intro i j a b hi hj
    cases i with
    | zero =>
      simp only [List.getElem?_cons_zero, Option.some.injEq] at hi
      subst hi
      cases j with
      | zero =>
        simp only [List.getElem?_cons_zero, Option.some.injEq] at hj
        subst hj
        simp
      | succ j =>
        simp only [List.getElem?_cons_succ] at hj
        simpa using set_cons_perm x xs j b hj
    | succ i =>
      simp only [List.getElem?_cons_succ] at hi
      cases j with
      | zero =>
        simp only [List.getElem?_cons_zero, Option.some.injEq] at hj
        subst hj
        simpa using set_cons_perm x xs i a hi
      | succ j =>
        simp only [List.getElem?_cons_succ] at hj
        simpa using List.Perm.cons x (ih i j a b hi hj)

/-- Swapping two positions of a list permutes it. -/
theorem listSwap_perm (l : List Char) (i j : ℕ) : List.Perm (listSwap l i j) l := by
  unfold listSwap
  cases hi : l[i]? with
  | none => exact List.Perm.refl l
  | some a =>
    cases hj : l[j]? with
    | none => exact List.Perm.refl l
    | some b => exact set_set_perm l i j a b hi hj

/- Characterizations of the candidate-pair enumeration. -/

/-- Membership in one row of the candidate enumeration. -/
theorem mem_rowPairs {i : ℕ} {p : ℕ × ℕ} :
    p ∈ rowPairs i ↔ p.1 = i ∧ i < p.2 ∧ p.2 < 26 := by
  cases p with
  | mk a b =>
    simp only [rowPairs, List.mem_map, List.mem_filter, List.mem_range,
      Prod.mk.injEq, decide_eq_true_eq]
    constructor
    · rintro ⟨j, ⟨hj26, hij⟩, rfl, rfl⟩
      exact ⟨rfl, hij, hj26⟩
    · rintro ⟨rfl, hib, hb26⟩
      exact ⟨b, ⟨hb26, hib⟩, rfl, rfl⟩

/-- Membership in the full candidate enumeration. -/
theorem mem_candidatePairs {p : ℕ × ℕ} :
    p ∈ candidatePairs ↔ p.1 < p.2 ∧ p.2 < 26 := by
  simp only [candidatePairs, List.mem_flatten, List.mem_map, List.mem_range]
  constructor
  · rintro ⟨l, ⟨i, hi26, rfl⟩, hp⟩
    obtain ⟨h1, h2, h3⟩ := mem_rowPairs.mp hp
    exact ⟨h1 ▸ h2, h3⟩
  · rintro ⟨hij, hj26⟩
    refine ⟨rowPairs p.1, ⟨p.1, ?_, rfl⟩, mem_rowPairs.mpr ⟨rfl, hij, hj26⟩⟩
    omega

/-- Candidate pairs are listed in strictly increasing lexicographic order:
i ascending, then j ascending. -/
theorem candidatePairs_sorted :
    List.Pairwise (fun p q : ℕ × ℕ => p.1 < q.1 ∨ (p.1 = q.1 ∧ p.2 < q.2))
      candidatePairs := by
  rw [candidatePairs, List.pairwise_flatten]
  refine ⟨?_, ?_⟩
  · intro l hl
    simp only [List.mem_map, List.mem_range] at hl
    obtain ⟨i, _, rfl⟩ := hl
    rw [rowPairs, List.pairwise_map]
    refine List.Pairwise.imp ?_ (List.Pairwise.filter _ (List.pairwise_lt_range 26))
    intro a b hab
    exact Or.inr ⟨rfl, hab⟩
  · rw [List.pairwise_map]
    refine List.Pairwise.imp ?_ (List.pairwise_lt_range 26)
    intro a b hab x hx y hy
    obtain ⟨hx1, _, _⟩ := mem_rowPairs.mp hx
    obtain ⟨hy1, _, _⟩ := mem_rowPairs.mp hy
    exact Or.inl (by omega)

/- Characterizations of the best-swap scan fold. -/

/-- Once the running best is a concrete pair, it stays a concrete pair. -/
theorem scan_fst_isSome (L : List Char) (F : FreqTable) :
    ∀ (ps : List (ℕ × ℕ)) (r : ℕ × ℕ) (v : ℚ),
      (ps.foldl (scanStep L F) (some r, v)).1.isSome := by
  intro ps
  induction ps with
  | nil => intro r v; simp
  | cons p ps ih =>
    intro r v
    rw [List.foldl_cons]
    by_cases h : swapCost L F p < v
    · simpa [scanStep, h] using ih p (swapCost L F p)
    · simpa [scanStep, h] using ih r v

/-- Result of a scan that found no improving swap: the running cost is
unchanged and no scanned candidate beats it. -/
theorem scan_none (L : List Char) (F : FreqTable) :
    ∀ (ps : List (ℕ × ℕ)) (c w : ℚ),
      ps.foldl (scanStep L F) (none, c) = (none, w) →
      w = c ∧ ∀ q ∈ ps, ¬ swapCost L F q < c := by
  intro ps
  induction ps with
  | nil =>
    intro c w h
    simp only [List.foldl_nil, Prod.mk.injEq] at h
    exact ⟨h.2.symm, by simp⟩
  | cons p ps ih =>
    intro c w h
    rw [List.foldl_cons] at h
    by_cases hp : swapCost L F p < c
    · exfalso
      rw [show scanStep L F (none, c) p = (some p, swapCost L F p) by
        simp [scanStep, hp]] at h
      have := scan_fst_isSome L F ps p (swapCost L F p)
      rw [h] at this
      simp at this
    · rw [show scanStep L F (none, c) p = (none, c) by simp [scanStep, hp]] at h
      obtain ⟨hw, hall⟩ := ih c w h
      refine ⟨hw, ?_⟩
      intro q hq
      rcases List.mem_cons.mp hq with rfl | hq
      · exact hp
      · exact hall q hq

/-- Result of the scan fold started from a concrete running best: either
nothing improved on it, or the result is the earliest candidate attaining
the final (strictly smaller) cost. -/
theorem scan_from_some (L : List Char) (F : FreqTable) :
    ∀ (ps : List (ℕ × ℕ)) (r : ℕ × ℕ) (v : ℚ) (p : ℕ × ℕ) (w : ℚ),
      ps.foldl (scanStep L F) (some r, v) = (some p, w) →
      (p = r ∧ w = v ∧ ∀ q ∈ ps, v ≤ swapCost L F q) ∨
      (∃ l₁ l₂, ps = l₁ ++ p :: l₂ ∧ w = swapCost L F p ∧ w < v ∧
        (∀ q ∈ l₁, w < swapCost L F q) ∧ (∀ q ∈ l₂, w ≤ swapCost L F q)) := by
  intro ps
  induction ps with
  | nil =>
    intro r v p w h
    simp only [List.foldl_nil, Prod.mk.injEq, Option.some.injEq] at h
    exact Or.inl ⟨h.1.symm, h.2.symm, by simp⟩
  | cons s ps ih =>
    intro r v p w h
    rw [List.foldl_cons] at h
    by_cases hs : swapCost L F s < v
    · rw [show scanStep L F (some r, v) s = (some s, swapCost L F s) by
        simp [scanStep, hs]] at h
      rcases ih s (swapCost L F s) p w h with ⟨hp, hw, hall⟩ | ⟨l₁, l₂, hsplit, hw, hlt, h1, h2⟩
      · refine Or.inr ⟨[], ps, ?_, ?_, ?_, by simp, ?_⟩
        · simp [hp]
        · rw [hw, hp]
        · rw [hw]; exact hs
        · intro q hq; rw [hw]; exact hall q hq
      · refine Or.inr ⟨s :: l₁, l₂, by rw [hsplit]; rfl, hw, lt_trans hlt hs, ?_, h2⟩
        intro q hq
        rcases List.mem_cons.mp hq with rfl | hq
        · exact hlt
        · exact h1 q hq
    · rw [show scanStep L F (some r, v) s = (some r, v) by simp [scanStep, hs]] at h
      rcases ih r v p w h with ⟨hp, hw, hall⟩ | ⟨l₁, l₂, hsplit, hw, hlt, h1, h2⟩
      · refine Or.inl ⟨hp, hw, ?_⟩
        intro q hq
        rcases List.mem_cons.mp hq with rfl | hq
        · exact not_lt.mp hs
        · exact hall q hq
      · refine Or.inr ⟨s :: l₁, l₂, by rw [hsplit]; rfl, hw, hlt, ?_, h2⟩
        intro q hq
        rcases List.mem_cons.mp hq with rfl | hq
        · exact lt_of_lt_of_le hlt (not_lt.mp hs)
        · exact h1 q hq

/-- Result of a scan that found an improving swap: the returned pair is the
earliest candidate attaining the final cost, which is strictly below the
starting cost, beats every earlier candidate strictly, and is at most every
later candidate. -/
theorem scan_some (L : List Char) (F : FreqTable) :
    ∀ (ps : List (ℕ × ℕ)) (c : ℚ) (p : ℕ × ℕ) (w : ℚ),
      ps.foldl (scanStep L F) (none, c) = (some p, w) →
      ∃ l₁ l₂, ps = l₁ ++ p :: l₂ ∧ w = swapCost L F p ∧ w < c ∧
        (∀ q ∈ l₁, w < swapCost L F q) ∧ (∀ q ∈ l₂, w ≤ swapCost L F q) := by
  intro ps
  induction ps with
  | nil => intro c p w h; simp at h
  | cons s ps ih =>
    intro c p w h
    rw [List.foldl_cons] at h
    by_cases hs : swapCost L F s < c
    · rw [show scanStep L F (none, c) s = (some s, swapCost L F s) by
        simp [scanStep, hs]] at h
      rcases scan_from_some L F ps s (swapCost L F s) p w h with
        ⟨hp, hw, hall⟩ | ⟨l₁, l₂, hsplit, hw, hlt, h1, h2⟩
      · refine ⟨[], ps, by simp [hp], by rw [hw, hp], by rw [hw]; exact hs, by simp, ?_⟩
        intro q hq; rw [hw]; exact hall q hq
      · refine ⟨s :: l₁, l₂, by rw [hsplit]; rfl, hw, lt_trans hlt hs, ?_, h2⟩
        intro q hq
        rcases List.mem_cons.mp hq with rfl | hq
        · exact hlt
        · exact h1 q hq
    · rw [show scanStep L F (none, c) s = (none, c) by simp [scanStep, hs]] at h
      obtain ⟨l₁, l₂, hsplit, hw, hlt, h1, h2⟩ := ih c p w h
      refine ⟨s :: l₁, l₂, by rw [hsplit]; rfl, hw, hlt, ?_, h2⟩
      intro q hq
      rcases List.mem_cons.mp hq with rfl | hq
      · exact lt_of_lt_of_le hlt (not_lt.mp hs)
      · exact h1 q hq

/-- Specialization of scan_none to scanSwaps. -/
theorem scanSwaps_none {L : List Char} {F : FreqTable} {c w : ℚ}
    (h : scanSwaps L F c = (none, w)) :
    w = c ∧ ∀ q ∈ candidatePairs, ¬ swapCost L F q < c :=
  scan_none L F candidatePairs c w h

/-- Specialization of scan_some to scanSwaps. -/
theorem scanSwaps_some {L : List Char} {F : FreqTable} {c : ℚ} {p : ℕ × ℕ} {w : ℚ}
    (h : scanSwaps L F c = (some p, w)) :
    ∃ l₁ l₂, candidatePairs = l₁ ++ p :: l₂ ∧ w = swapCost L F p ∧ w < c ∧
      (∀ q ∈ l₁, w < swapCost L F q) ∧ (∀ q ∈ l₂, w ≤ swapCost L F q) :=
  scan_some L F candidatePairs c p w h

/- Lemmas about the main loop of find_valley. -/

/-- Valley property of the loop result: the returned cost is the cost of the
returned layout, and no candidate swap of the returned layout beats it. -/
theorem find_valley_loop_valley (freq : FreqTable) :
    ∀ (fuel : ℕ) (L : List Char) (c : ℚ) (steps : ℕ) (r : OptimizationResult),
      c = calculate_cost L freq →
      find_valley_loop freq fuel L c steps = some r →
      r.cost = calculate_cost r.layout freq ∧
        ∀ q ∈ candidatePairs, ¬ swapCost r.layout freq q < r.cost := by
  intro fuel
  induction fuel with
  | zero => intro L c steps r _ h; simp [find_valley_loop] at h
  | succ fuel ih =>
    intro L c steps r hc h
    rw [show find_valley_loop freq (fuel + 1) L c steps =
      match scanSwaps L freq c with
      | (some p, best_swap_cost) =>
          find_valley_loop freq fuel (listSwap L p.1 p.2) best_swap_cost (steps + 1)
      | (none, _) => some ⟨L, c, steps + 1⟩ from rfl] at h
    rcases hscan : scanSwaps L freq c with ⟨b, w⟩
    cases b with
    | none =>
      rw [hscan] at h
      simp only [Option.some.injEq] at h
      obtain ⟨-, hall⟩ := scanSwaps_none hscan
      rw [← h]
      exact ⟨hc, hall⟩
    | some p =>
      rw [hscan] at h
      obtain ⟨l₁, l₂, -, hw, -, -, -⟩ := scanSwaps_some hscan
      exact ih (listSwap L p.1 p.2) w (steps + 1) r (by rw [hw]; rfl) h

/-- Cost of the loop result never exceeds the starting running cost. -/
theorem find_valley_loop_cost_le (freq : FreqTable) :
    ∀ (fuel : ℕ) (L : List Char) (c : ℚ) (steps : ℕ) (r : OptimizationResult),
      find_valley_loop freq fuel L c steps = some r → r.cost ≤ c := by
  intro fuel
  induction fuel with
  | zero => intro L c steps r h; simp [find_valley_loop] at h
  | succ fuel ih =>
    intro L c steps r h
    rw [show find_valley_loop freq (fuel + 1) L c steps =
      match scanSwaps L freq c with
      | (some p, best_swap_cost) =>
          find_valley_loop freq fuel (listSwap L p.1 p.2) best_swap_cost (steps + 1)
      | (none, _) => some ⟨L, c, steps + 1⟩ from rfl] at h
    rcases hscan : scanSwaps L freq c with ⟨b, w⟩
    cases b with
    | none =>
      rw [hscan] at h
      simp only [Option.some.injEq] at h
      rw [← h]
    | some p =>
      rw [hscan] at h
      obtain ⟨l₁, l₂, -, -, hlt, -, -⟩ := scanSwaps_some hscan
      exact le_of_lt (lt_of_le_of_lt (ih _ w (steps + 1) r h) hlt)

/-- Layout of the loop result is a permutation of the starting layout. -/
theorem find_valley_loop_perm (freq : FreqTable) :
    ∀ (fuel : ℕ) (L : List Char) (c : ℚ) (steps : ℕ) (r : OptimizationResult),
      find_valley_loop freq fuel L c steps = some r → List.Perm r.layout L := by
  intro fuel
  induction fuel with
  | zero => intro L c steps r h; simp [find_valley_loop] at h
  | succ fuel ih =>
    intro L c steps r h
    rw [show find_valley_loop freq (fuel + 1) L c steps =
      match scanSwaps L freq c with
      | (some p, best_swap_cost) =>
          find_valley_loop freq fuel (listSwap L p.1 p.2) best_swap_cost (steps + 1)
      | (none, _) => some ⟨L, c, steps + 1⟩ from rfl] at h
    rcases hscan : scanSwaps L freq c with ⟨b, w⟩
    cases b with
    | none =>
      rw [hscan] at h
      simp only [Option.some.injEq] at h
      rw [← h]
    | some p =>
      rw [hscan] at h
      exact (ih _ w (steps + 1) r h).trans (listSwap_perm L p.1 p.2)

/- Termination: the loop's running cost is drawn from the finite set of
costs of same-length layouts over the starting symbols, and strictly
decreases at every applied swap. -/

/-- All lists of a given length whose entries are drawn from sym (with
repetition); this finite enumeration only feeds the termination argument
and is never evaluated. -/
def allLists (sym : List Char) : ℕ → List (List Char)
  | 0 => [[]]
  | n + 1 => sym.flatMap fun a => (allLists sym n).map (a :: ·)

/-- Membership in allLists is exactly the length and support conditions. -/
theorem mem_allLists (sym : List Char) :
    ∀ (n : ℕ) (xs : List Char),
      xs ∈ allLists sym n ↔ xs.length = n ∧ ∀ x ∈ xs, x ∈ sym := by
  intro n
  induction n with
  | zero =>
    intro xs
    simp only [allLists, List.mem_singleton]
    constructor
    · rintro rfl; simp
    · rintro ⟨h, -⟩; exact List.length_eq_zero.mp h
  | succ n ih =>
    intro xs
    simp only [allLists, List.mem_flatMap, List.mem_map]
    constructor
    · rintro ⟨a, ha, ys, hys, rfl⟩
      obtain ⟨hlen, hsup⟩ := ih ys |>.mp hys
      refine ⟨by simp [hlen], ?_⟩
      intro x hx
      rcases List.mem_cons.mp hx with rfl | hx
      · exact ha
      · exact hsup x hx
    · rintro ⟨hlen, hsup⟩
      cases xs with
      | nil => simp at hlen
      | cons a ys =>
        refine ⟨a, hsup a (by simp), ys, ?_, rfl⟩
        refine (ih ys).mpr ⟨by simpa using hlen, ?_⟩
        intro x hx
        exact hsup x (List.mem_cons_of_mem a hx)

/-- Finite set of costs of all layouts of length n over the symbols of sym. -/
def costSet (sym : List Char) (n : ℕ) (freq : FreqTable) : Finset ℚ :=
  ((allLists sym n).map fun l => calculate_cost l freq).toFinset

/-- Termination measure: how many attainable costs lie strictly below c. -/
def costMeasure (sym : List Char) (n : ℕ) (freq : FreqTable) (c : ℚ) : ℕ :=
  ((costSet sym n freq).filter (· < c)).card

/-- Cost of an attainable layout lies in the cost set. -/
theorem cost_mem_costSet {sym : List Char} {n : ℕ} {freq : FreqTable}
    {L : List Char} (hlen : L.length = n) (hsup : ∀ x ∈ L, x ∈ sym) :
    calculate_cost L freq ∈ costSet sym n freq := by
  rw [costSet, List.mem_toFinset, List.mem_map]
  exact ⟨L, (mem_allLists sym n L).mpr ⟨hlen, hsup⟩, rfl⟩

/-- Attainable strict improvement shrinks the termination measure. -/
theorem costMeasure_lt {sym : List Char} {n : ℕ} {freq : FreqTable}
    {L : List Char} {c : ℚ} (hlen : L.length = n) (hsup : ∀ x ∈ L, x ∈ sym)
    (hlt : calculate_cost L freq < c) :
    costMeasure sym n freq (calculate_cost L freq) < costMeasure sym n freq c := by
  apply Finset.card_lt_card
  refine (Finset.ssubset_iff_of_subset ?_).mpr ?_
  · intro x hx
    rw [Finset.mem_filter] at hx ⊢
    exact ⟨hx.1, lt_trans hx.2 hlt⟩
  · refine ⟨calculate_cost L freq, ?_, ?_⟩
    · rw [Finset.mem_filter]
      exact ⟨cost_mem_costSet hlen hsup, hlt⟩
    · rw [Finset.mem_filter]
      simp

/-- Fuel one more than the measure of the running cost completes the loop. -/
theorem find_valley_loop_term (freq : FreqTable) (sym : List Char) (n : ℕ) :
    ∀ (k : ℕ) (L : List Char) (c : ℚ) (steps : ℕ),
      costMeasure sym n freq c ≤ k → L.length = n → (∀ x ∈ L, x ∈ sym) →
      ∃ r, find_valley_loop freq (k + 1) L c steps = some r := by
  intro k
  induction k with
  | zero =>
    intro L c steps hk hlen hsup
    rcases hscan : scanSwaps L freq c with ⟨b, w⟩
    cases b with
    | none =>
      refine ⟨⟨L, c, steps + 1⟩, ?_⟩
      rw [show find_valley_loop freq 1 L c steps =
        match scanSwaps L freq c with
        | (some p, best_swap_cost) =>
            find_valley_loop freq 0 (listSwap L p.1 p.2) best_swap_cost (steps + 1)
        | (none, _) => some ⟨L, c, steps + 1⟩ from rfl, hscan]
    | some p =>
      exfalso
      obtain ⟨l₁, l₂, -, hw, hlt, -, -⟩ := scanSwaps_some hscan
      have hlen' : (listSwap L p.1 p.2).length = n := by
        rw [(listSwap_perm L p.1 p.2).length_eq, hlen]
      have hsup' : ∀ x ∈ listSwap L p.1 p.2, x ∈ sym := fun x hx =>
        hsup x ((listSwap_perm L p.1 p.2).subset hx)
      have hw' : w = calculate_cost (listSwap L p.1 p.2) freq := hw
      have := costMeasure_lt hlen' hsup' (hw' ▸ hlt)
      omega
  | succ k ih =>
    intro L c steps hk hlen hsup
    rcases hscan : scanSwaps L freq c with ⟨b, w⟩
    cases b with
    | none =>
      refine ⟨⟨L, c, steps + 1⟩, ?_⟩
      rw [show find_valley_loop freq (k + 1 + 1) L c steps =
        match scanSwaps L freq c with
        | (some p, best_swap_cost) =>
            find_valley_loop freq (k + 1) (listSwap L p.1 p.2) best_swap_cost (steps + 1)
        | (none, _) => some ⟨L, c, steps + 1⟩ from rfl, hscan]
    | some p =>
      obtain ⟨l₁, l₂, -, hw, hlt, -, -⟩ := scanSwaps_some hscan
      have hlen' : (listSwap L p.1 p.2).length = n := by
        rw [(listSwap_perm L p.1 p.2).length_eq, hlen]
      have hsup' : ∀ x ∈ listSwap L p.1 p.2, x ∈ sym := fun x hx =>
        hsup x ((listSwap_perm L p.1 p.2).subset hx)
      have hw' : w = calculate_cost (listSwap L p.1 p.2) freq := hw
      have hmeas : costMeasure sym n freq w < costMeasure sym n freq c := by
        have h2 := costMeasure_lt hlen' hsup' (hw' ▸ hlt)
        rw [hw']
        exact h2
      obtain ⟨r, hr⟩ := ih (listSwap L p.1 p.2) w (steps + 1) (by omega) hlen' hsup'
      refine ⟨r, ?_⟩
      rw [show find_valley_loop freq (k + 1 + 1) L c steps =
        match scanSwaps L freq c with
        | (some p, best_swap_cost) =>
            find_valley_loop freq (k + 1) (listSwap L p.1 p.2) best_swap_cost (steps + 1)
        | (none, _) => some ⟨L, c, steps + 1⟩ from rfl, hscan]
      exact hr

/-- Added fuel never changes an already-completed loop result. -/
theorem find_valley_loop_fuel_add (freq : FreqTable) :
    ∀ (fuel : ℕ) (L : List Char) (c : ℚ) (steps : ℕ) (r : OptimizationResult),
      find_valley_loop freq fuel L c steps = some r →
      ∀ m, find_valley_loop freq (fuel + m) L c steps = some r := by
  intro fuel
  induction fuel with
  | zero => intro L c steps r h; simp [find_valley_loop] at h
  | succ fuel ih =>
    intro L c steps r h m
    rw [Nat.add_right_comm]
    rw [show find_valley_loop freq (fuel + 1) L c steps =
      match scanSwaps L freq c with
      | (some p, best_swap_cost) =>
          find_valley_loop freq fuel (listSwap L p.1 p.2) best_swap_cost (steps + 1)
      | (none, _) => some ⟨L, c, steps + 1⟩ from rfl] at h
    rw [show find_valley_loop freq (fuel + m + 1) L c steps =
      match scanSwaps L freq c with
      | (some p, best_swap_cost) =>
          find_valley_loop freq (fuel + m) (listSwap L p.1 p.2) best_swap_cost (steps + 1)
      | (none, _) => some ⟨L, c, steps + 1⟩ from rfl]
    rcases hscan : scanSwaps L freq c with ⟨b, w⟩
    rw [hscan] at h
    cases b with
    | none => exact h
    | some p => exact ih _ w (steps + 1) r h m

/- The empty frequency table. -/

/-- Cost under the empty table is zero for every layout. -/
theorem calculate_cost_nil (L : List Char) : calculate_cost L [] = 0 := rfl

/-- Scan under the empty table from running cost zero never updates. -/
theorem scanFold_nil_freq (L : List Char) :
    ∀ ps : List (ℕ × ℕ),
      ps.foldl (scanStep L []) (none, 0) = ((none : Option (ℕ × ℕ)), (0 : ℚ)) := by
  intro ps
  induction ps with
  | nil => rfl
  | cons p ps ih =>
    have hstep : scanStep L [] (none, (0 : ℚ)) p = (none, 0) := by
      simp [scanStep, swapCost, calculate_cost]
    rw [List.foldl_cons, hstep]
    exact ih

/-- Full scan under the empty table finds no improving swap. -/
theorem scanSwaps_nil_freq (L : List Char) :
    scanSwaps L [] 0 = (none, 0) :=
  scanFold_nil_freq L candidatePairs

/-- Under the empty table find_valley stops after its first pass, for any
positive fuel, returning the input layout, cost zero and one step. -/
theorem find_valley_nil_freq (L : List Char) (extra : ℕ) :
    find_valley L [] (extra + 1) = some ⟨L, 0, 1⟩ := by
  show find_valley_loop [] (extra + 1) L (calculate_cost L []) 0 = _
  rw [calculate_cost_nil]
  simp only [find_valley_loop, scanSwaps_nil_freq]

/- Model of the result store (save_to_db, layout_exists, setup_db). -/

/-- Stored row of the layouts table (the autoincrement id is immaterial to
the store's contract and omitted). -/
structure DBRow where
  layout : String
  cost : ℚ
  steps : ℕ
deriving DecidableEq

/-- Database state: the rows of the layouts table in insertion order. -/
abbrev DB := List DBRow

/-- Embedding of layout_exists: the SELECT by layout string succeeds exactly
when some stored row carries that layout. -/
def layout_exists (db : DB) (layout : List Char) : Bool :=
  db.any fun row => row.layout == String.mk layout

/-- Modelled from the spec and from setup_db's UNIQUE column: INSERT appends
a row, failing with a constraint violation when the layout is already
present (SQLite itself is outside this repository). -/
def db_insert (db : DB) (row : DBRow) : Except String DB :=
  if db.any fun r => r.layout == row.layout then
    Except.error "UNIQUE constraint failed"
  else Except.ok (db ++ [row])

/-- Embedding of save_to_db: return Ok at once when the layout already
exists, otherwise INSERT the new row. -/
def save_to_db (db : DB) (result : OptimizationResult) : Except String DB :=
  if layout_exists db result.layout then Except.ok db
  else db_insert db ⟨String.mk result.layout, result.cost, result.steps⟩

/- Model of the bigram-frequency loader (load_bigram_frequencies). -/

/-- Numeric value of a digit string. -/
def digitsVal (cs : List Char) : ℕ :=
  cs.foldl (fun n c => 10 * n + (c.toNat - '0'.toNat)) 0

/-- Modelled from the spec: the Rust standard library's f64 parse (outside
this repository) restricted to plain decimal literals, with an optional
sign, integer digits and an optional fractional part, yielding the exact
rational value; exponent, inf and nan forms are not modelled. -/
def parseDecimal? (cs : List Char) : Option ℚ :=
  let withSign : ℚ → List Char → Option ℚ := fun sign body =>
    match body.splitOn '.' with
    | [intPart] =>
      if intPart ≠ [] ∧ intPart.all Char.isDigit then
        some (sign * (digitsVal intPart : ℚ))
      else none
    | [intPart, fracPart] =>
      if (intPart ≠ [] ∨ fracPart ≠ []) ∧ intPart.all Char.isDigit ∧
          fracPart.all Char.isDigit then
        some (sign * ((digitsVal intPart : ℚ) +
          (digitsVal fracPart : ℚ) / (10 : ℚ) ^ fracPart.length))
      else none
    | _ => none
  match cs with
  | '-' :: rest => withSign (-1) rest
  | '+' :: rest => withSign 1 rest
  | rest => withSign 1 rest

/-- Whitespace tokenization of split_whitespace: maximal runs of
non-whitespace characters, in order, with no empty tokens. -/
def wsTokens (cs : List Char) : List (List Char) :=
  let r := cs.foldr
    (fun c acc =>
      if c.isWhitespace then
        (if acc.2 = ([] : List Char) then acc.1 else acc.2 :: acc.1, ([] : List Char))
      else (acc.1, c :: acc.2))
    (([] : List (List Char)), ([] : List Char))
  if r.2 = ([] : List Char) then r.1 else r.2 :: r.1

/-- HashMap insert on the association-list model: overwrite the entry when
the key is present, append otherwise. -/
def insertBigram (m : FreqTable) (k : Char × Char) (v : ℚ) : FreqTable :=
  if m.any fun e => e.1 == k then m.map fun e => if e.1 == k then (k, v) else e
  else m ++ [(k, v)]

/-- Embedding of load_bigram_frequencies, the file's lines given as a list
of strings (file open and read are outside the model): a line contributes an
entry exactly when it splits into two whitespace tokens whose first has
exactly two characters (byte length in Rust, identical on the ASCII inputs
modelled here) and whose second parses as a number; no condition is placed
on the sign of the parsed weight. -/
def load_bigram_frequencies (lines : List String) : FreqTable :=
  lines.foldl
    (fun bigrams line =>
      match wsTokens line.toList with
      | [bigram, freqTok] =>
        match bigram, parseDecimal? freqTok with
        | [a, b], some freq => insertBigram bigrams (a, b) freq
        | _, _ => bigrams
      | _ => bigrams)
    []

/- Concrete scenario data. -/

/-- Frequency table of Scenario A: the single bigram qw with weight 10. -/
def qwFreq : FreqTable := [(('q', 'w'), 10)]

/-- Valley reached from the alphabet under qwFreq: the alphabet with
positions 15 and 22 (the letters p and w) exchanged. -/
def QW_VALLEY : List Char := "abcdefghijklmnowqrstuvpxyz".toList

/-- Decomposition of the candidate enumeration into its 26 rows, used to
evaluate concrete scans without one monolithic 325-step reduction. -/
theorem candidatePairs_rows :
    candidatePairs =
      rowPairs 0 ++ (rowPairs 1 ++ (rowPairs 2 ++ (rowPairs 3 ++ (rowPairs 4 ++ (rowPairs 5 ++ (rowPairs 6 ++ (rowPairs 7 ++ (rowPairs 8 ++ (rowPairs 9 ++ (rowPairs 10 ++ (rowPairs 11 ++ (rowPairs 12 ++ (rowPairs 13 ++ (rowPairs 14 ++ (rowPairs 15 ++ (rowPairs 16 ++ (rowPairs 17 ++ (rowPairs 18 ++ (rowPairs 19 ++ (rowPairs 20 ++ (rowPairs 21 ++ (rowPairs 22 ++ (rowPairs 23 ++ (rowPairs 24 ++ (rowPairs 25))))))))))))))))))))))))) := by
  decide
/-- Row-by-row evaluation of the first scan of Scenario A. -/
theorem scanQW1 : scanSwaps ALPHABET qwFreq 60 = (some (15, 22), 10) := by
  have e0 : (rowPairs 0).foldl (scanStep ALPHABET qwFreq) ((none : Option (ℕ × ℕ)), (60 : ℚ)) = ((none : Option (ℕ × ℕ)), (60 : ℚ)) := by
    with_unfolding_all decide
  have e1 : (rowPairs 1).foldl (scanStep ALPHABET qwFreq) ((none : Option (ℕ × ℕ)), (60 : ℚ)) = ((none : Option (ℕ × ℕ)), (60 : ℚ)) := by
    with_unfolding_all decide
  have e2 : (rowPairs 2).foldl (scanStep ALPHABET qwFreq) ((none : Option (ℕ × ℕ)), (60 : ℚ)) = ((none : Option (ℕ × ℕ)), (60 : ℚ)) := by
    with_unfolding_all decide
  have e3 : (rowPairs 3).foldl (scanStep ALPHABET qwFreq) ((none : Option (ℕ × ℕ)), (60 : ℚ)) = ((none : Option (ℕ × ℕ)), (60 : ℚ)) := by
    with_unfolding_all decide
  have e4 : (rowPairs 4).foldl (scanStep ALPHABET qwFreq) ((none : Option (ℕ × ℕ)), (60 : ℚ)) = ((none : Option (ℕ × ℕ)), (60 : ℚ)) := by
    with_unfolding_all decide
  have e5 : (rowPairs 5).foldl (scanStep ALPHABET qwFreq) ((none : Option (ℕ × ℕ)), (60 : ℚ)) = ((none : Option (ℕ × ℕ)), (60 : ℚ)) := by
    with_unfolding_all decide
  have e6 : (rowPairs 6).foldl (scanStep ALPHABET qwFreq) ((none : Option (ℕ × ℕ)), (60 : ℚ)) = ((none : Option (ℕ × ℕ)), (60 : ℚ)) := by
    with_unfolding_all decide
  have e7 : (rowPairs 7).foldl (scanStep ALPHABET qwFreq) ((none : Option (ℕ × ℕ)), (60 : ℚ)) = ((none : Option (ℕ × ℕ)), (60 : ℚ)) := by
    with_unfolding_all decide
  have e8 : (rowPairs 8).foldl (scanStep ALPHABET qwFreq) ((none : Option (ℕ × ℕ)), (60 : ℚ)) = ((none : Option (ℕ × ℕ)), (60 : ℚ)) := by
    with_unfolding_all decide
  have e9 : (rowPairs 9).foldl (scanStep ALPHABET qwFreq) ((none : Option (ℕ × ℕ)), (60 : ℚ)) = ((none : Option (ℕ × ℕ)), (60 : ℚ)) := by
    with_unfolding_all decide
  have e10 : (rowPairs 10).foldl (scanStep ALPHABET qwFreq) ((none : Option (ℕ × ℕ)), (60 : ℚ)) = ((none : Option (ℕ × ℕ)), (60 : ℚ)) := by
    with_unfolding_all decide
  have e11 : (rowPairs 11).foldl (scanStep ALPHABET qwFreq) ((none : Option (ℕ × ℕ)), (60 : ℚ)) = (some (11, 22), (50 : ℚ)) := by
    with_unfolding_all decide
  have e12 : (rowPairs 12).foldl (scanStep ALPHABET qwFreq) (some (11, 22), (50 : ℚ)) = (some (12, 22), (40 : ℚ)) := by
    with_unfolding_all decide
  have e13 : (rowPairs 13).foldl (scanStep ALPHABET qwFreq) (some (12, 22), (40 : ℚ)) = (some (13, 22), (30 : ℚ)) := by
    with_unfolding_all decide
  have e14 : (rowPairs 14).foldl (scanStep ALPHABET qwFreq) (some (13, 22), (30 : ℚ)) = (some (14, 22), (20 : ℚ)) := by
    with_unfolding_all decide
  have e15 : (rowPairs 15).foldl (scanStep ALPHABET qwFreq) (some (14, 22), (20 : ℚ)) = (some (15, 22), (10 : ℚ)) := by
    with_unfolding_all decide
  have e16 : (rowPairs 16).foldl (scanStep ALPHABET qwFreq) (some (15, 22), (10 : ℚ)) = (some (15, 22), (10 : ℚ)) := by
    with_unfolding_all decide
  have e17 : (rowPairs 17).foldl (scanStep ALPHABET qwFreq) (some (15, 22), (10 : ℚ)) = (some (15, 22), (10 : ℚ)) := by
    with_unfolding_all decide
  have e18 : (rowPairs 18).foldl (scanStep ALPHABET qwFreq) (some (15, 22), (10 : ℚ)) = (some (15, 22), (10 : ℚ)) := by
    with_unfolding_all decide
  have e19 : (rowPairs 19).foldl (scanStep ALPHABET qwFreq) (some (15, 22), (10 : ℚ)) = (some (15, 22), (10 : ℚ)) := by
    with_unfolding_all decide
  have e20 : (rowPairs 20).foldl (scanStep ALPHABET qwFreq) (some (15, 22), (10 : ℚ)) = (some (15, 22), (10 : ℚ)) := by
    with_unfolding_all decide
  have e21 : (rowPairs 21).foldl (scanStep ALPHABET qwFreq) (some (15, 22), (10 : ℚ)) = (some (15, 22), (10 : ℚ)) := by
    with_unfolding_all decide
  have e22 : (rowPairs 22).foldl (scanStep ALPHABET qwFreq) (some (15, 22), (10 : ℚ)) = (some (15, 22), (10 : ℚ)) := by
    with_unfolding_all decide
  have e23 : (rowPairs 23).foldl (scanStep ALPHABET qwFreq) (some (15, 22), (10 : ℚ)) = (some (15, 22), (10 : ℚ)) := by
    with_unfolding_all decide
  have e24 : (rowPairs 24).foldl (scanStep ALPHABET qwFreq) (some (15, 22), (10 : ℚ)) = (some (15, 22), (10 : ℚ)) := by
    with_unfolding_all decide
  have e25 : (rowPairs 25).foldl (scanStep ALPHABET qwFreq) (some (15, 22), (10 : ℚ)) = (some (15, 22), (10 : ℚ)) := by
    with_unfolding_all decide
  rw [scanSwaps, candidatePairs_rows]
  simp only [List.foldl_append, e0, e1, e2, e3, e4, e5, e6, e7, e8, e9, e10, e11, e12, e13, e14, e15, e16, e17, e18, e19, e20, e21, e22, e23, e24, e25]

/-- Row-by-row evaluation of the second scan of Scenario A: no swap
improves the valley. -/
theorem scanQW2 : scanSwaps QW_VALLEY qwFreq 10 = (none, 10) := by
  have f0 : (rowPairs 0).foldl (scanStep QW_VALLEY qwFreq) ((none : Option (ℕ × ℕ)), (10 : ℚ)) = ((none : Option (ℕ × ℕ)), (10 : ℚ)) := by
    with_unfolding_all decide
  have f1 : (rowPairs 1).foldl (scanStep QW_VALLEY qwFreq) ((none : Option (ℕ × ℕ)), (10 : ℚ)) = ((none : Option (ℕ × ℕ)), (10 : ℚ)) := by
    with_unfolding_all decide
  have f2 : (rowPairs 2).foldl (scanStep QW_VALLEY qwFreq) ((none : Option (ℕ × ℕ)), (10 : ℚ)) = ((none : Option (ℕ × ℕ)), (10 : ℚ)) := by
    with_unfolding_all decide
  have f3 : (rowPairs 3).foldl (scanStep QW_VALLEY qwFreq) ((none : Option (ℕ × ℕ)), (10 : ℚ)) = ((none : Option (ℕ × ℕ)), (10 : ℚ)) := by
    with_unfolding_all decide
  have f4 : (rowPairs 4).foldl (scanStep QW_VALLEY qwFreq) ((none : Option (ℕ × ℕ)), (10 : ℚ)) = ((none : Option (ℕ × ℕ)), (10 : ℚ)) := by
    with_unfolding_all decide
  have f5 : (rowPairs 5).foldl (scanStep QW_VALLEY qwFreq) ((none : Option (ℕ × ℕ)), (10 : ℚ)) = ((none : Option (ℕ × ℕ)), (10 : ℚ)) := by
    with_unfolding_all decide
  have f6 : (rowPairs 6).foldl (scanStep QW_VALLEY qwFreq) ((none : Option (ℕ × ℕ)), (10 : ℚ)) = ((none : Option (ℕ × ℕ)), (10 : ℚ)) := by
    with_unfolding_all decide
  have f7 : (rowPairs 7).foldl (scanStep QW_VALLEY qwFreq) ((none : Option (ℕ × ℕ)), (10 : ℚ)) = ((none : Option (ℕ × ℕ)), (10 : ℚ)) := by
    with_unfolding_all decide
  have f8 : (rowPairs 8).foldl (scanStep QW_VALLEY qwFreq) ((none : Option (ℕ × ℕ)), (10 : ℚ)) = ((none : Option (ℕ × ℕ)), (10 : ℚ)) := by
    with_unfolding_all decide
  have f9 : (rowPairs 9).foldl (scanStep QW_VALLEY qwFreq) ((none : Option (ℕ × ℕ)), (10 : ℚ)) = ((none : Option (ℕ × ℕ)), (10 : ℚ)) := by
    with_unfolding_all decide
  have f10 : (rowPairs 10).foldl (scanStep QW_VALLEY qwFreq) ((none : Option (ℕ × ℕ)), (10 : ℚ)) = ((none : Option (ℕ × ℕ)), (10 : ℚ)) := by
    with_unfolding_all decide
  have f11 : (rowPairs 11).foldl (scanStep QW_VALLEY qwFreq) ((none : Option (ℕ × ℕ)), (10 : ℚ)) = ((none : Option (ℕ × ℕ)), (10 : ℚ)) := by
    with_unfolding_all decide
  have f12 : (rowPairs 12).foldl (scanStep QW_VALLEY qwFreq) ((none : Option (ℕ × ℕ)), (10 : ℚ)) = ((none : Option (ℕ × ℕ)), (10 : ℚ)) := by
    with_unfolding_all decide
  have f13 : (rowPairs 13).foldl (scanStep QW_VALLEY qwFreq) ((none : Option (ℕ × ℕ)), (10 : ℚ)) = ((none : Option (ℕ × ℕ)), (10 : ℚ)) := by
    with_unfolding_all decide
  have f14 : (rowPairs 14).foldl (scanStep QW_VALLEY qwFreq) ((none : Option (ℕ × ℕ)), (10 : ℚ)) = ((none : Option (ℕ × ℕ)), (10 : ℚ)) := by
    with_unfolding_all decide
  have f15 : (rowPairs 15).foldl (scanStep QW_VALLEY qwFreq) ((none : Option (ℕ × ℕ)), (10 : ℚ)) = ((none : Option (ℕ × ℕ)), (10 : ℚ)) := by
    with_unfolding_all decide
  have f16 : (rowPairs 16).foldl (scanStep QW_VALLEY qwFreq) ((none : Option (ℕ × ℕ)), (10 : ℚ)) = ((none : Option (ℕ × ℕ)), (10 : ℚ)) := by
    with_unfolding_all decide
  have f17 : (rowPairs 17).foldl (scanStep QW_VALLEY qwFreq) ((none : Option (ℕ × ℕ)), (10 : ℚ)) = ((none : Option (ℕ × ℕ)), (10 : ℚ)) := by
    with_unfolding_all decide
  have f18 : (rowPairs 18).foldl (scanStep QW_VALLEY qwFreq) ((none : Option (ℕ × ℕ)), (10 : ℚ)) = ((none : Option (ℕ × ℕ)), (10 : ℚ)) := by
    with_unfolding_all decide
  have f19 : (rowPairs 19).foldl (scanStep QW_VALLEY qwFreq) ((none : Option (ℕ × ℕ)), (10 : ℚ)) = ((none : Option (ℕ × ℕ)), (10 : ℚ)) := by
    with_unfolding_all decide
  have f20 : (rowPairs 20).foldl (scanStep QW_VALLEY qwFreq) ((none : Option (ℕ × ℕ)), (10 : ℚ)) = ((none : Option (ℕ × ℕ)), (10 : ℚ)) := by
    with_unfolding_all decide
  have f21 : (rowPairs 21).foldl (scanStep QW_VALLEY qwFreq) ((none : Option (ℕ × ℕ)), (10 : ℚ)) = ((none : Option (ℕ × ℕ)), (10 : ℚ)) := by
    with_unfolding_all decide
  have f22 : (rowPairs 22).foldl (scanStep QW_VALLEY qwFreq) ((none : Option (ℕ × ℕ)), (10 : ℚ)) = ((none : Option (ℕ × ℕ)), (10 : ℚ)) := by
    with_unfolding_all decide
  have f23 : (rowPairs 23).foldl (scanStep QW_VALLEY qwFreq) ((none : Option (ℕ × ℕ)), (10 : ℚ)) = ((none : Option (ℕ × ℕ)), (10 : ℚ)) := by
    with_unfolding_all decide
  have f24 : (rowPairs 24).foldl (scanStep QW_VALLEY qwFreq) ((none : Option (ℕ × ℕ)), (10 : ℚ)) = ((none : Option (ℕ × ℕ)), (10 : ℚ)) := by
    with_unfolding_all decide
  have f25 : (rowPairs 25).foldl (scanStep QW_VALLEY qwFreq) ((none : Option (ℕ × ℕ)), (10 : ℚ)) = ((none : Option (ℕ × ℕ)), (10 : ℚ)) := by
    with_unfolding_all decide
  rw [scanSwaps, candidatePairs_rows]
  simp only [List.foldl_append, f0, f1, f2, f3, f4, f5, f6, f7, f8, f9, f10, f11, f12, f13, f14, f15, f16, f17, f18, f19, f20, f21, f22, f23, f24, f25]

/- Claim theorems. -/

/-- C1: for every starting layout and frequency table, a layout returned by
find_valley is a valley: its cost is the calculate_cost value of its layout,
and no pairwise position swap (i, j) with i < j < 26 yields a calculate_cost
value strictly less than the returned cost. -/
theorem find_valley_returns_valley (layout : List Char) (freq : FreqTable)
    (fuel : ℕ) (r : OptimizationResult)
    (h : find_valley layout freq fuel = some r) :
    r.cost = calculate_cost r.layout freq ∧
      ∀ i j, i < j → j < 26 →
        ¬ calculate_cost (listSwap r.layout i j) freq < r.cost := by
  obtain ⟨h1, h2⟩ :=
    find_valley_loop_valley freq fuel layout (calculate_cost layout freq) 0 r rfl h
  refine ⟨h1, ?_⟩
  intro i j hij hj26
  exact h2 (i, j) (mem_candidatePairs.mpr ⟨hij, hj26⟩)

/-- Witness for C1: the valley property instantiated at the alphabet under
the empty table, at the swap (0, 1). -/
theorem find_valley_returns_valley_witness :
    ¬ calculate_cost (listSwap ALPHABET 0 1) [] < (0 : ℚ) := by
  have h := find_valley_returns_valley ALPHABET [] 1 ⟨ALPHABET, 0, 1⟩
    (find_valley_nil_freq ALPHABET 0)
  exact h.2 0 1 (by decide) (by decide)

/-- C2: for every starting layout and table, some finite fuel completes the
loop; the returned cost never exceeds the starting cost; and every iteration
that applies a swap strictly decreases the running cost. -/
theorem find_valley_terminates_monotone (layout : List Char) (freq : FreqTable) :
    (∃ fuel r, find_valley layout freq fuel = some r) ∧
    (∀ fuel r, find_valley layout freq fuel = some r →
      r.cost ≤ calculate_cost layout freq) ∧
    (∀ (L : List Char) (c : ℚ) (p : ℕ × ℕ) (w : ℚ),
      scanSwaps L freq c = (some p, w) → w < c) := by
  refine ⟨?_, ?_, ?_⟩
  · obtain ⟨r, hr⟩ := find_valley_loop_term freq layout layout.length
      (costMeasure layout layout.length freq (calculate_cost layout freq))
      layout (calculate_cost layout freq) 0 le_rfl rfl (fun x hx => hx)
    exact ⟨_, r, hr⟩
  · intro fuel r h
    exact find_valley_loop_cost_le freq fuel layout _ 0 r h
  · intro L c p w h
    obtain ⟨l₁, l₂, -, -, hlt, -, -⟩ := scanSwaps_some h
    exact hlt

/-- Witness for C2: the cost bound instantiated at the alphabet under the
empty table. -/
theorem find_valley_terminates_monotone_witness :
    (⟨ALPHABET, 0, 1⟩ : OptimizationResult).cost ≤ calculate_cost ALPHABET [] :=
  (find_valley_terminates_monotone ALPHABET []).2.1 1 ⟨ALPHABET, 0, 1⟩
    (find_valley_nil_freq ALPHABET 0)

/-- C3: find_valley is a function of its inputs, so two runs on identical
starting layout and table return identical results; and the swap applied on
an iteration is the candidate with the lowest resulting cost, the earliest
in the enumeration order i ascending then j ascending among those tied. -/
theorem find_valley_deterministic_tiebreak (freq : FreqTable) :
    (∀ (layout : List Char) (fuel : ℕ) (r₁ r₂ : Option OptimizationResult),
      find_valley layout freq fuel = r₁ → find_valley layout freq fuel = r₂ →
        r₁ = r₂) ∧
    (∀ (L : List Char) (c : ℚ) (i j : ℕ) (w : ℚ),
      scanSwaps L freq c = (some (i, j), w) →
      w = swapCost L freq (i, j) ∧ w < c ∧
      (∀ q ∈ candidatePairs, w ≤ swapCost L freq q) ∧
      (∀ q ∈ candidatePairs, swapCost L freq q = w →
        (i, j) = q ∨ i < q.1 ∨ (i = q.1 ∧ j < q.2))) := by
  constructor
  · intro layout fuel r₁ r₂ h1 h2
    rw [← h1, ← h2]
  · intro L c i j w h
    obtain ⟨l₁, l₂, hsplit, hw, hlt, hbefore, hafter⟩ := scanSwaps_some h
    refine ⟨hw, hlt, ?_, ?_⟩
    · intro q hq
      rw [hsplit] at hq
      rcases List.mem_append.mp hq with hq | hq
      · exact le_of_lt (hbefore q hq)
      · rcases List.mem_cons.mp hq with rfl | hq
        · exact le_of_eq hw
        · exact hafter q hq
    · intro q hq hqw
      rw [hsplit] at hq
      rcases List.mem_append.mp hq with hq | hq
      · exact absurd hqw (ne_of_gt (hbefore q hq))
      · rcases List.mem_cons.mp hq with rfl | hq
        · exact Or.inl rfl
        · have hsort := candidatePairs_sorted
          rw [hsplit] at hsort
          have h3 := (List.pairwise_append.mp hsort).2.1
          have h4 := (List.pairwise_cons.mp h3).1 q hq
          rcases h4 with h4 | h4
          · exact Or.inr (Or.inl h4)
          · exact Or.inr (Or.inr ⟨h4.1, h4.2⟩)

/-- Witness for C3: the tie-break characterization instantiated at the first
Scenario A scan, whose applied swap is (15, 22) at cost 10. -/
theorem find_valley_deterministic_tiebreak_witness :
    (10 : ℚ) = swapCost ALPHABET qwFreq (15, 22) ∧ (10 : ℚ) < 60 := by
  have h := (find_valley_deterministic_tiebreak qwFreq).2 ALPHABET 60 15 22 10 scanQW1
  exact ⟨h.1, h.2.1⟩

/-- C4: inserting a layout into a store not yet holding it succeeds, and a
second insert of the same layout is a no-op Ok that leaves exactly one
record for that layout, carrying the first insertion's cost and steps. -/
theorem save_to_db_idempotent (db : DB) (r : OptimizationResult)
    (hnew : layout_exists db r.layout = false) (db' : DB)
    (hfirst : save_to_db db r = Except.ok db') :
    save_to_db db' r = Except.ok db' ∧
      db'.filter (fun row => row.layout == String.mk r.layout) =
        [⟨String.mk r.layout, r.cost, r.steps⟩] := by
  have hany : (db.any fun row => row.layout == String.mk r.layout) = false := hnew
  rw [save_to_db, hnew] at hfirst
  simp only [Bool.false_eq_true, if_false, db_insert] at hfirst
  rw [hany] at hfirst
  simp only [Bool.false_eq_true, if_false, Except.ok.injEq] at hfirst
  subst hfirst
  constructor
  · rw [save_to_db]
    have hex : layout_exists (db ++ [⟨String.mk r.layout, r.cost, r.steps⟩]) r.layout
        = true := by
      rw [layout_exists, List.any_append]
      simp
    rw [hex]
    simp
  · rw [List.filter_append]
    have h1 : db.filter (fun row => row.layout == String.mk r.layout) = [] := by
      rw [List.filter_eq_nil_iff]
      intro row hrow
      have := List.any_eq_false.mp hany row hrow
      simpa using this
    rw [h1]
    simp

/-- Witness for C4: a fresh store receiving the same record twice. -/
theorem save_to_db_idempotent_witness :
    save_to_db [⟨String.mk ['a'], 5, 1⟩] ⟨['a'], 5, 1⟩ =
        Except.ok [⟨String.mk ['a'], 5, 1⟩] ∧
      List.filter (fun row => row.layout == String.mk ['a'])
        [(⟨String.mk ['a'], 5, 1⟩ : DBRow)] = [⟨String.mk ['a'], 5, 1⟩] := by
  have h := save_to_db_idempotent [] ⟨['a'], 5, 1⟩ rfl
    [⟨String.mk ['a'], 5, 1⟩] (by rfl)
  exact h

/-- C5 counterexample: 13 workers of 100000000 / 13 = 7692307 trials each
total 99999991 trials, not MAX_TRIES. -/
theorem worker_budget_counterexample :
    workerTrials = 7692307 ∧ totalTrials = 99999991 ∧ totalTrials ≠ MAX_TRIES := by
  refine ⟨by decide, by decide, by decide⟩

/-- C5 amended: each worker performs exactly MAX_TRIES / CONCURRENT_TASKS
trials (floor division), and the total over the whole run is
MAX_TRIES - MAX_TRIES % CONCURRENT_TASKS, which is 9 short of MAX_TRIES. -/
theorem worker_budget_amended :
    workerTrials = MAX_TRIES / CONCURRENT_TASKS ∧
      totalTrials = MAX_TRIES - MAX_TRIES % CONCURRENT_TASKS ∧
      MAX_TRIES % CONCURRENT_TASKS = 9 ∧ totalTrials < MAX_TRIES := by
  refine ⟨rfl, by decide, by decide, by decide⟩

/-- C6: Scenario A: from the alphabet in natural order under the table
mapping the bigram qw to weight 10, find_valley (with any sufficient fuel)
returns the alphabet with positions 15 and 22 exchanged, in which q and w
sit at positions 16 and 15, at distance 1, with final cost 10, in 2 steps. -/
theorem find_valley_qw_scenario (extra : ℕ) :
    find_valley ALPHABET qwFreq (extra + 2) = some ⟨QW_VALLEY, 10, 2⟩ ∧
      QW_VALLEY.findIdx? (· == 'q') = some 16 ∧
      QW_VALLEY.findIdx? (· == 'w') = some 15 ∧
      Nat.dist 16 15 = 1 := by
  have hcost : calculate_cost ALPHABET qwFreq = 60 := by
    with_unfolding_all decide
  have hswap : listSwap ALPHABET 15 22 = QW_VALLEY := by decide
  have step2 : ∀ m, find_valley_loop qwFreq (m + 1) QW_VALLEY 10 1 =
      some ⟨QW_VALLEY, 10, 2⟩ := by
    intro m
    simp only [find_valley_loop, scanQW2]
  have step1 : find_valley_loop qwFreq (extra + 1 + 1) ALPHABET 60 0 =
      some ⟨QW_VALLEY, 10, 2⟩ := by
    simp only [find_valley_loop, scanQW1, hswap, Nat.zero_add]
    exact step2 extra
  refine ⟨?_, by decide, by decide, by decide⟩
  show find_valley_loop qwFreq (extra + 2) ALPHABET (calculate_cost ALPHABET qwFreq) 0 = _
  rw [hcost]
  exact step1

/-- C7: Scenario B: under the empty table calculate_cost is 0 on every
layout, and find_valley (with any positive fuel) terminates after its first
pass returning the input layout unchanged, cost 0, steps 1. -/
theorem find_valley_empty_table_scenario (layout : List Char) (extra : ℕ) :
    calculate_cost layout [] = 0 ∧
      find_valley layout [] (extra + 1) = some ⟨layout, 0, 1⟩ :=
  ⟨calculate_cost_nil layout, find_valley_nil_freq layout extra⟩

/-- One cost-fold step never decreases the accumulator when the entry weight
is non-negative. -/
theorem costStep_le (layout : List Char) (acc : ℚ) (e : (Char × Char) × ℚ)
    (h : 0 ≤ e.2) : acc ≤ costStep layout acc e := by
  rw [costStep]
  cases h1 : layout.findIdx? (· == e.1.1) with
  | none => simp
  | some pos_a =>
    cases h2 : layout.findIdx? (· == e.1.2) with
    | none => simp
    | some pos_b =>
      simp only
      exact le_add_of_nonneg_right (mul_nonneg h (by positivity))

/-- The cost fold never decreases the accumulator when all weights are
non-negative. -/
theorem cost_fold_mono (layout : List Char) :
    ∀ (freq : FreqTable) (acc : ℚ), (∀ e ∈ freq, 0 ≤ e.2) →
      acc ≤ freq.foldl (costStep layout) acc := by
  intro freq
  induction freq with
  | nil => intro acc _; simp
  | cons e fs ih =>
    intro acc h
    rw [List.foldl_cons]
    refine le_trans (costStep_le layout acc e (h e (by simp))) ?_
    exact ih (costStep layout acc e) fun x hx => h x (List.mem_cons_of_mem e hx)

/-- C8: with a frequency table of non-negative weights, calculate_cost is
non-negative on every layout. -/
theorem calculate_cost_nonneg (layout : List Char) (freq : FreqTable)
    (h : ∀ e ∈ freq, 0 ≤ e.2) : 0 ≤ calculate_cost layout freq :=
  cost_fold_mono layout freq 0 h

/-- Witness for C8 at the alphabet under the qw table. -/
theorem calculate_cost_nonneg_witness : (0 : ℚ) ≤ calculate_cost ALPHABET qwFreq :=
  calculate_cost_nonneg ALPHABET qwFreq (by decide)

/-- C9: generate_random_layout always yields a permutation of the 26-letter
alphabet, and the layout of any find_valley result is a permutation of the
starting layout. -/
theorem layout_permutation_invariant :
    (∀ draws : ℕ → ℕ, List.Perm (generate_random_layout draws) ALPHABET) ∧
    (∀ (layout : List Char) (freq : FreqTable) (fuel : ℕ) (r : OptimizationResult),
      find_valley layout freq fuel = some r → List.Perm r.layout layout) := by
  constructor
  · intro draws
    have hgen : ∀ (i : ℕ) (l : List Char), List.Perm (shuffleLoop draws i l) l := by
      intro i
      induction i with
      | zero => intro l; exact List.Perm.refl l
      | succ i ih =>
        intro l
        exact (ih _).trans (listSwap_perm l (i + 1) (draws (i + 1) % (i + 2)))
    exact hgen 25 ALPHABET
  · intro layout freq fuel r h
    exact find_valley_loop_perm freq fuel layout _ 0 r h

/-- Witness for C9 at the alphabet under the empty table. -/
theorem layout_permutation_invariant_witness :
    List.Perm (⟨ALPHABET, 0, 1⟩ : OptimizationResult).layout ALPHABET :=
  layout_permutation_invariant.2 ALPHABET [] 1 ⟨ALPHABET, 0, 1⟩
    (find_valley_nil_freq ALPHABET 0)

/-- C10: the loader accepts a well-formed two-token line with a length-2
bigram and a parseable negative weight, inserting it rather than skipping
it, so the loaded table can contain negative weights, under which the
cost-non-negativity property fails. -/
theorem load_accepts_negative_weights :
    load_bigram_frequencies ["qw -3.5"] = [(('q', 'w'), -7/2)] ∧
      calculate_cost ALPHABET [(('q', 'w'), -7/2)] < 0 := by
  constructor
  · with_unfolding_all decide
  · with_unfolding_all decide
